import Mathlib

/-!
Shallow embedding of the Enoch repository (src/main.py), a Telegram chat bot
with a per-user store (username, full name, quiz score, prayer requests),
an admin registry persisted next to a config-defined base set, a saved-group
list, and a ranking command.  The spec describes the economy engine of the
bot family; where the engine code (ledger / reward clock) is not present in
src/, definitions are modelled from the spec and say so in their doc comment.

Python `dict`s preserve insertion order, so the users store is embedded as an
association list `List (Int × UserRecord)` keyed by the user id (the source
keys by `str(uid)`; `str` is injective on ints, so the id itself is used).
Python `set`s carry no order, so the admin set is a `Finset Int`.
-/

namespace Enoch

/-- Python `str.upper()` restricted to what the kernel evaluates: upper-case
every character.  (The source compares `args[0].upper()` with the stored
answer upper-cased; only equality of the two upper-cased strings matters.) -/
def upperStr (s : String) : String := ⟨s.data.map Char.toUpper⟩

/-- A user record as created by `add_user` in src/main.py: username, full
name, quiz score, prayer requests (text/time pairs) and first-seen stamp. -/
structure UserRecord where
  username : Option String
  full_name : Option String
  quiz_score : Int
  prayer_requests : List (String × String)
  first_seen : String
deriving Repr, DecidableEq

/-- The users store: the JSON object of USERS_FILE, in insertion order. -/
abbrev Users := List (Int × UserRecord)

/-- Dictionary read: first binding of the key, as in a Python dict. -/
def lookupUser : Users → Int → Option UserRecord
  | [], _ => none
  | (k, v) :: rest, uid => if k = uid then some v else lookupUser rest uid

/-- Dictionary write: replace the first binding of the key in place (keys are
unique in a Python dict, and insertion order of an existing key is kept);
append when absent. -/
def setUser : Users → Int → UserRecord → Users
  | [], uid, r => [(uid, r)]
  | (k, v) :: rest, uid, r =>
    if k = uid then (uid, r) :: rest else (k, v) :: setUser rest uid r

/-- `add_user` (src/main.py:111-125): create the record with score 0 and
empty prayer list when the id is new, else overwrite only `username` and
`full_name`.  `now` stands for `datetime.utcnow().isoformat()`. -/
def add_user (users : Users) (uid : Int) (username name : Option String)
    (now : String) : Users :=
  match lookupUser users uid with
  | none =>
      users ++ [(uid,
        { username := username, full_name := name, quiz_score := 0,
          prayer_requests := [], first_seen := now })]
  | some r => setUser users uid { r with username := username, full_name := name }

/-- `answer` (src/main.py:266-287), state effect only: when the upper-cased
answer matches, increment the user's quiz score and save; otherwise the store
is untouched.  A missing user raises `KeyError` before `save_json`, so the
stored state is unchanged in that case as well. -/
def answer_step (users : Users) (uid : Int) (userAns correctAns : String) :
    Users :=
  if upperStr userAns = upperStr correctAns then
    match lookupUser users uid with
    | some r => setUser users uid { r with quiz_score := r.quiz_score + 1 }
    | none => users
  else users

/-- `prayer` (src/main.py:227-241), state effect only: `add_user` first, then
append the request to the user's `prayer_requests` and save. -/
def prayer_step (users : Users) (uid : Int) (username name : Option String)
    (text time now : String) : Users :=
  let users1 := add_user users uid username name now
  match lookupUser users1 uid with
  | some r =>
      setUser users1 uid
        { r with prayer_requests := r.prayer_requests ++ [(text, time)] }
  | none => users1

/-- The store-mutating bot operations of src/main.py. -/
inductive BotOp where
  | addUser (uid : Int) (username name : Option String) (now : String)
  | answerOp (uid : Int) (userAns correctAns : String)
  | prayerOp (uid : Int) (username name : Option String) (text time now : String)
deriving Repr, DecidableEq

/-- One operation applied to the users store. -/
def applyOp (users : Users) : BotOp → Users
  | .addUser uid un nm now => add_user users uid un nm now
  | .answerOp uid ua ca => answer_step users uid ua ca
  | .prayerOp uid un nm text time now => prayer_step users uid un nm text time now

/-- A sequence of operations applied left to right. -/
def runOps (users : Users) : List BotOp → Users
  | [] => users
  | op :: ops => runOps (applyOp users op) ops

/-- Number of successful (correct) answers by `uid` in an operation list. -/
def countCorrect (uid : Int) : List BotOp → Int
  | [] => 0
  | .answerOp u ua ca :: ops =>
      (if u = uid ∧ upperStr ua = upperStr ca then 1 else 0) + countCorrect uid ops
  | _ :: ops => countCorrect uid ops

/-- The per-user counter is non-negative wherever the store is defined. -/
def scoresOk (users : Users) : Prop :=
  ∀ uid r, lookupUser users uid = some r → 0 ≤ r.quiz_score

/-! ### Ranking (`tops`, src/main.py:289-302) -/

/-- Python truthiness chain `d.get("username") or d.get("full_name") or
"Unknown"`: `None` and the empty string are falsy. -/
def orTruthy (s : Option String) (d : String) : String :=
  match s with
  | none => d
  | some v => if v = "" then d else v

/-- The display name used in a ranking row. -/
def displayName (r : UserRecord) : String :=
  orTruthy r.username (orTruthy r.full_name "Unknown")

/-- One insertion step of a stable descending sort on the score: the new
element is placed after every earlier element with a strictly larger score
and before the first one whose score is at most its own, so equal scores
keep their original relative order.  This is the behaviour of Python's
stable `list.sort(key=lambda x: x[1], reverse=True)`. -/
def insertDesc (x : String × Int) : List (String × Int) → List (String × Int)
  | [] => [x]
  | y :: ys => if x.2 < y.2 then y :: insertDesc x ys else x :: y :: ys

/-- Stable descending sort by score (insertion sort formulation). -/
def sortDesc : List (String × Int) → List (String × Int)
  | [] => []
  | x :: xs => insertDesc x (sortDesc xs)

/-- The `(name, quiz_score)` rows built by `tops` in store order. -/
def ranks (users : Users) : List (String × Int) :=
  users.map fun p => (displayName p.2, p.2.quiz_score)

/-- `tops` (src/main.py:289-302): build `(name, quiz_score)` rows in store
order, sort them descending by score with Python's stable sort, and keep the
first 10 (`rank[:10]`). -/
def tops (users : Users) : List (String × Int) :=
  (sortDesc (ranks users)).take 10

/-! ### Admin registry (src/main.py:89-106, 328-385) -/

/-- `is_admin` (src/main.py:105-106). -/
def is_admin (admins : Finset Int) (uid : Int) : Bool := decide (uid ∈ admins)

/-- Replies `addadmin` can produce before/after mutating. -/
inductive AddAdminRes where
  | notAuthorized
  | alreadyAdmin
  | added
deriving Repr, DecidableEq

/-- `addadmin` (src/main.py:328-352), with the argument already parsed to the
target id: refuse non-admin callers, refuse a target already in `ADMINS`,
else insert the target and persist. -/
def addadmin (admins : Finset Int) (caller target : Int) :
    AddAdminRes × Finset Int :=
  if ¬ is_admin admins caller then (.notAuthorized, admins)
  else if target ∈ admins then (.alreadyAdmin, admins)
  else (.added, insert target admins)

/-- Replies `deladmin` can produce. -/
inductive DelAdminRes where
  | notAuthorized
  | cannotRemoveOwner
  | notAdmin
  | removed
deriving Repr, DecidableEq

/-- `deladmin` (src/main.py:361-385): refuse non-admin callers, refuse a
target listed in `config.ADMIN_IDS`, refuse a target not in `ADMINS`, else
remove and persist. -/
def deladmin (base : List Int) (admins : Finset Int) (caller target : Int) :
    DelAdminRes × Finset Int :=
  if ¬ is_admin admins caller then (.notAuthorized, admins)
  else if target ∈ base then (.cannotRemoveOwner, admins)
  else if target ∉ admins then (.notAdmin, admins)
  else (.removed, admins.erase target)

/-- `load_admins` (src/main.py:89-96): the config base ids united with the
extras stored in ADMIN_FILE (both converted to int; the conversion is the
identity here since the model already carries ints). -/
def load_admins (base extras : List Int) : Finset Int :=
  base.toFinset ∪ extras.toFinset

/-- `persist_admins` (src/main.py:100-103): store `sorted(ADMINS - base)`. -/
def persist_admins (base : List Int) (admins : Finset Int) : List Int :=
  (admins \ base.toFinset).sort (· ≤ ·)

/-- The admin-set mutations reachable from the command handlers. -/
inductive AdminOp where
  | add (caller target : Int)
  | del (caller target : Int)
deriving Repr, DecidableEq

/-- State effect of one admin command on `ADMINS`. -/
def applyAdminOp (base : List Int) (admins : Finset Int) : AdminOp → Finset Int
  | .add c t => (addadmin admins c t).2
  | .del c t => (deladmin base admins c t).2

/-- A sequence of admin commands applied left to right. -/
def runAdminOps (base : List Int) (admins : Finset Int) :
    List AdminOp → Finset Int
  | [] => admins
  | op :: ops => runAdminOps base (applyAdminOp base admins op) ops

/-- Result of `broadcast_cmd` before any message is sent. -/
inductive BroadcastRes where
  | notAuthorized
  | usage
  | sent
deriving Repr, DecidableEq

/-- `broadcast_cmd` (src/main.py:390-399), control flow up to the send:
refuse non-admin callers, ask for usage on empty args, else broadcast. -/
def broadcast_cmd (admins : Finset Int) (caller : Int) (args : List String) :
    BroadcastRes :=
  if ¬ is_admin admins caller then .notAuthorized
  else if args = [] then .usage
  else .sent

/-! ### Saved groups (src/main.py:134-145) -/

/-- `save_group` (src/main.py:141-145): append the chat id only when it is
not yet listed; a duplicate id takes the silent no-op branch. -/
def save_group (gid : Int) (groups : List Int) : List Int :=
  if gid ∈ groups then groups else groups ++ [gid]

/-! ### Ledger and reward clock (not in src/) -/

/-- Modelled from the spec: the Ledger `debit` of the economy engine is not
part of src/ (src/main.py is the chat-glue variant without the engine).
Spec §4.3: `debit` checks `balance >= amount` and applies the decrement as a
single atomic step, returning the new balance or `InsufficientFunds`. -/
def debit (bal amount : Int) : Option Int :=
  if amount ≤ bal then some (bal - amount) else none

/-- Modelled from the spec: `N` draw attempts against one account.  Spec §4.3
makes each debit atomic and §5 serialises same-user compound operations, so
any interleaving of concurrent draws is equivalent to running them one after
the other; the result is `(successes, failures, final balance)`. -/
def runDraws (cost : Int) : Nat → Int → Nat × Nat × Int
  | 0, bal => (0, 0, bal)
  | n + 1, bal =>
    match debit bal cost with
    | some b => let r := runDraws cost n b; (r.1 + 1, r.2.1, r.2.2)
    | none => let r := runDraws cost n bal; (r.1, r.2.1 + 1, r.2.2)

/-- Modelled from the spec: the weekly-claim eligibility test actually found
in the engine source.  Spec §9 reports that the source's weekly-claim logic
reuses the daily "changed since today" check, granting whenever the stored
last-claim date differs from the current date.  Dates are day numbers. -/
def claimWeekly_code (lastClaim today : Nat) : Bool := today ≠ lastClaim

/-- Modelled from the spec: the intended weekly eligibility of §4.5 — the
next eligible date is `last + 7 days`. -/
def claimWeekly_spec (lastClaim today : Nat) : Bool := lastClaim + 7 ≤ today

/-! ### Dictionary lemmas -/

theorem lookup_setUser_self (users : Users) (uid : Int) (r : UserRecord) :
    lookupUser (setUser users uid r) uid = some r := by
  induction users with
  | nil => simp [setUser, lookupUser]
  | cons p rest ih =>
    obtain ⟨k, v⟩ := p
    by_cases hk : k = uid
    · simp [setUser, lookupUser, hk]
    · simp [setUser, lookupUser, hk, ih]

theorem lookup_setUser_ne (users : Users) (uid uid' : Int) (r : UserRecord)
    (h : uid' ≠ uid) :
    lookupUser (setUser users uid r) uid' = lookupUser users uid' := by
  have h2 : ¬ uid = uid' := fun hc => h hc.symm
  induction users with
  | nil => simp [setUser, lookupUser, h2]
  | cons p rest ih =>
    obtain ⟨k, v⟩ := p
    by_cases hk : k = uid
    · subst hk
      simp [setUser, lookupUser, h2]
    · by_cases hk' : k = uid'
      · simp [setUser, lookupUser, hk, hk', h]
      · simp [setUser, lookupUser, hk, hk', ih]

theorem lookup_append_of_some (users l : Users) (uid : Int) (r : UserRecord)
    (h : lookupUser users uid = some r) :
    lookupUser (users ++ l) uid = some r := by
  induction users with
  | nil => simp [lookupUser] at h
  | cons p rest ih =>
    obtain ⟨k, v⟩ := p
    by_cases hk : k = uid
    · simpa [lookupUser, hk] using h
    · simp [lookupUser, hk] at h ⊢
      exact ih h

theorem lookup_add_user_self_of_none (users : Users) (uid : Int)
    (un nm : Option String) (now : String)
    (h : lookupUser users uid = none) :
    lookupUser (add_user users uid un nm now) uid =
      some { username := un, full_name := nm, quiz_score := 0,
             prayer_requests := [], first_seen := now } := by
  unfold add_user
  rw [h]
  induction users with
  | nil => simp [lookupUser]
  | cons p rest ih =>
    obtain ⟨k, v⟩ := p
    by_cases hk : k = uid
    · simp [lookupUser, hk] at h
    · simp [lookupUser, hk] at h ⊢
      exact ih h

theorem lookup_add_user_self_of_some (users : Users) (uid : Int)
    (un nm : Option String) (now : String) (r : UserRecord)
    (h : lookupUser users uid = some r) :
    lookupUser (add_user users uid un nm now) uid =
      some { r with username := un, full_name := nm } := by
  unfold add_user
  rw [h]
  exact lookup_setUser_self users uid _

theorem lookup_append_single_ne (users : Users) (uid uid' : Int)
    (r0 : UserRecord) (h : uid' ≠ uid) :
    lookupUser (users ++ [(uid, r0)]) uid' = lookupUser users uid' := by
  induction users with
  | nil =>
    have h2 : ¬ uid = uid' := fun hc => h hc.symm
    simp [lookupUser, h2]
  | cons p rest ih =>
    obtain ⟨k, v⟩ := p
    by_cases hk : k = uid'
    · simp [lookupUser, hk]
    · simp [lookupUser, hk, ih]

theorem lookup_add_user_ne (users : Users) (uid uid' : Int)
    (un nm : Option String) (now : String) (h : uid' ≠ uid) :
    lookupUser (add_user users uid un nm now) uid' =
      lookupUser users uid' := by
  unfold add_user
  cases hcase : lookupUser users uid with
  | none => exact lookup_append_single_ne users uid uid' _ h
  | some r => exact lookup_setUser_ne users uid uid' _ h

/-! ### Score-tracking lemmas -/

/-- How much one operation adds to the quiz score of `uid`. -/
def opContrib (uid : Int) : BotOp → Int
  | .answerOp u ua ca => if u = uid ∧ upperStr ua = upperStr ca then 1 else 0
  | _ => 0

theorem opContrib_nonneg (uid : Int) (op : BotOp) : 0 ≤ opContrib uid op := by
  cases op with
  | answerOp u ua ca =>
    by_cases hc : u = uid ∧ upperStr ua = upperStr ca
    · simp [opContrib, hc]
    · simp [opContrib, hc]
  | addUser u un nm now => simp [opContrib]
  | prayerOp u un nm text time now => simp [opContrib]

theorem countCorrect_cons (uid : Int) (op : BotOp) (ops : List BotOp) :
    countCorrect uid (op :: ops) = opContrib uid op + countCorrect uid ops := by
  cases op <;> simp [countCorrect, opContrib]

theorem applyOp_score (users : Users) (op : BotOp) (uid : Int) (r : UserRecord)
    (h : lookupUser users uid = some r) :
    ∃ r', lookupUser (applyOp users op) uid = some r' ∧
      r'.quiz_score = r.quiz_score + opContrib uid op := by
  cases op with
  | addUser u un nm now =>
    by_cases hu : u = uid
    · subst hu
      exact ⟨_, lookup_add_user_self_of_some users u un nm now r h,
        by simp [opContrib]⟩
    · refine ⟨r, ?_, by simp [opContrib]⟩
      show lookupUser (add_user users u un nm now) uid = some r
      rw [lookup_add_user_ne users u uid un nm now (fun hc => hu hc.symm)]
      exact h
  | answerOp u ua ca =>
    show ∃ r', lookupUser (answer_step users u ua ca) uid = some r' ∧ _
    by_cases hmatch : upperStr ua = upperStr ca
    · by_cases hu : u = uid
      · subst hu
        refine ⟨{ r with quiz_score := r.quiz_score + 1 }, ?_, ?_⟩
        · rw [answer_step, if_pos hmatch, h]
          exact lookup_setUser_self users u _
        · simp [opContrib, hmatch]
      · refine ⟨r, ?_, by simp [opContrib, hu]⟩
        rw [answer_step, if_pos hmatch]
        cases hq : lookupUser users u with
        | some q =>
          rw [lookup_setUser_ne users u uid _ (fun hc => hu hc.symm)]
          exact h
        | none => exact h
    · refine ⟨r, ?_, by simp [opContrib, hmatch]⟩
      rw [answer_step, if_neg hmatch]
      exact h
  | prayerOp u un nm text time now =>
    show ∃ r', lookupUser (prayer_step users u un nm text time now) uid = some r' ∧ _
    by_cases hu : u = uid
    · subst hu
      have h1 := lookup_add_user_self_of_some users u un nm now r h
      refine ⟨{ username := un, full_name := nm, quiz_score := r.quiz_score,
                prayer_requests := r.prayer_requests ++ [(text, time)],
                first_seen := r.first_seen }, ?_, by simp [opContrib]⟩
      rw [prayer_step, h1]
      exact lookup_setUser_self _ u _
    · have hne : uid ≠ u := fun hc => hu hc.symm
      have h1 : lookupUser (add_user users u un nm now) uid = some r := by
        rw [lookup_add_user_ne users u uid un nm now hne]; exact h
      refine ⟨r, ?_, by simp [opContrib]⟩
      rw [prayer_step]
      cases hq : lookupUser (add_user users u un nm now) u with
      | some q =>
        rw [lookup_setUser_ne _ u uid _ hne]
        exact h1
      | none => exact h1

theorem applyOp_lookup_of_none (users : Users) (op : BotOp) (uid : Int)
    (h : lookupUser users uid = none) :
    lookupUser (applyOp users op) uid = none ∨
    ∃ r', lookupUser (applyOp users op) uid = some r' ∧ r'.quiz_score = 0 := by
  cases op with
  | addUser u un nm now =>
    by_cases hu : u = uid
    · subst hu
      exact .inr ⟨_, lookup_add_user_self_of_none users u un nm now h, rfl⟩
    · refine .inl ?_
      show lookupUser (add_user users u un nm now) uid = none
      rw [lookup_add_user_ne users u uid un nm now (fun hc => hu hc.symm)]
      exact h
  | answerOp u ua ca =>
    refine .inl ?_
    show lookupUser (answer_step users u ua ca) uid = none
    by_cases hmatch : upperStr ua = upperStr ca
    · rw [answer_step, if_pos hmatch]
      cases hq : lookupUser users u with
      | some q =>
        by_cases hu : u = uid
        · subst hu; rw [hq] at h; cases h
        · rw [lookup_setUser_ne users u uid _ (fun hc => hu hc.symm)]
          exact h
      | none => exact h
    · rw [answer_step, if_neg hmatch]; exact h
  | prayerOp u un nm text time now =>
    by_cases hu : u = uid
    · subst hu
      have h1 := lookup_add_user_self_of_none users u un nm now h
      refine .inr ⟨{ username := un, full_name := nm, quiz_score := 0,
                     prayer_requests := [] ++ [(text, time)],
                     first_seen := now }, ?_, rfl⟩
      rw [applyOp, prayer_step, h1]
      exact lookup_setUser_self _ u _
    · have hne : uid ≠ u := fun hc => hu hc.symm
      have h1 : lookupUser (add_user users u un nm now) uid = none := by
        rw [lookup_add_user_ne users u uid un nm now hne]; exact h
      refine .inl ?_
      rw [applyOp, prayer_step]
      cases hq : lookupUser (add_user users u un nm now) u with
      | some q =>
        rw [lookup_setUser_ne _ u uid _ hne]
        exact h1
      | none => exact h1

theorem applyOp_scoresOk (users : Users) (op : BotOp) (h : scoresOk users) :
    scoresOk (applyOp users op) := by
  intro uid r' h'
  cases hpre : lookupUser users uid with
  | some r =>
    obtain ⟨r1, h1, hs1⟩ := applyOp_score users op uid r hpre
    rw [h'] at h1
    injection h1 with he
    subst he
    have := h uid r hpre
    have := opContrib_nonneg uid op
    omega
  | none =>
    rcases applyOp_lookup_of_none users op uid hpre with hn | ⟨r1, h1, hs1⟩
    · rw [h'] at hn; cases hn
    · rw [h'] at h1
      injection h1 with he
      subst he
      omega

theorem runOps_scoresOk (ops : List BotOp) :
    ∀ users : Users, scoresOk users → scoresOk (runOps users ops) := by
  induction ops with
  | nil => exact fun users h => h
  | cons op ops ih =>
    intro users h
    exact ih (applyOp users op) (applyOp_scoresOk users op h)

theorem runOps_score (ops : List BotOp) :
    ∀ (users : Users) (uid : Int) (r : UserRecord),
      lookupUser users uid = some r →
      ∃ r', lookupUser (runOps users ops) uid = some r' ∧
        r'.quiz_score = r.quiz_score + countCorrect uid ops := by
  induction ops with
  | nil => exact fun users uid r h => ⟨r, h, by simp [countCorrect]⟩
  | cons op ops ih =>
    intro users uid r h
    obtain ⟨r1, h1, hs1⟩ := applyOp_score users op uid r h
    obtain ⟨r2, h2, hs2⟩ := ih (applyOp users op) uid r1 h1
    refine ⟨r2, h2, ?_⟩
    rw [hs2, hs1, countCorrect_cons]
    ring

/-! ### Sorting lemmas for `tops` -/

theorem mem_insertDesc (x z : String × Int) (l : List (String × Int)) :
    z ∈ insertDesc x l ↔ z = x ∨ z ∈ l := by
  induction l with
  | nil => simp [insertDesc]
  | cons y ys ih =>
    by_cases hc : x.2 < y.2
    · rw [insertDesc, if_pos hc]
      simp only [List.mem_cons, ih]
      tauto
    · rw [insertDesc, if_neg hc]
      simp only [List.mem_cons]

theorem pairwise_insertDesc (x : String × Int) (l : List (String × Int))
    (h : l.Pairwise (fun a b => b.2 ≤ a.2)) :
    (insertDesc x l).Pairwise (fun a b => b.2 ≤ a.2) := by
  induction l with
  | nil => simp [insertDesc]
  | cons y ys ih =>
    obtain ⟨hy, hys⟩ := List.pairwise_cons.1 h
    by_cases hc : x.2 < y.2
    · rw [insertDesc, if_pos hc]
      refine List.pairwise_cons.2 ⟨?_, ih hys⟩
      intro z hz
      rcases (mem_insertDesc x z ys).1 hz with rfl | hz'
      · exact le_of_lt hc
      · exact hy z hz'
    · rw [insertDesc, if_neg hc]
      refine List.pairwise_cons.2 ⟨?_, List.pairwise_cons.2 ⟨hy, hys⟩⟩
      intro z hz
      rcases List.mem_cons.1 hz with rfl | hz'
      · exact not_lt.1 hc
      · exact le_trans (hy z hz') (not_lt.1 hc)

theorem pairwise_sortDesc (l : List (String × Int)) :
    (sortDesc l).Pairwise (fun a b => b.2 ≤ a.2) := by
  induction l with
  | nil => simp [sortDesc]
  | cons x xs ih => exact pairwise_insertDesc x (sortDesc xs) ih

theorem insertDesc_perm (x : String × Int) (l : List (String × Int)) :
    (insertDesc x l).Perm (x :: l) := by
  induction l with
  | nil => simp [insertDesc]
  | cons y ys ih =>
    by_cases hc : x.2 < y.2
    · rw [insertDesc, if_pos hc]
      exact (List.Perm.cons y ih).trans (List.Perm.swap x y ys)
    · rw [insertDesc, if_neg hc]

theorem sortDesc_perm (l : List (String × Int)) : (sortDesc l).Perm l := by
  induction l with
  | nil => simp [sortDesc]
  | cons x xs ih =>
    exact (insertDesc_perm x (sortDesc xs)).trans (List.Perm.cons x ih)

theorem filter_insertDesc_eq (x : String × Int) (l : List (String × Int))
    (s : Int) (hx : x.2 = s) :
    (insertDesc x l).filter (fun p => decide (p.2 = s)) =
      x :: l.filter (fun p => decide (p.2 = s)) := by
  induction l with
  | nil => simp [insertDesc, List.filter, hx]
  | cons y ys ih =>
    by_cases hc : x.2 < y.2
    · have hy : ¬ y.2 = s := by omega
      rw [insertDesc, if_pos hc]
      simp only [List.filter, hy, decide_eq_true_eq, decide_eq_false hy]
      simpa [List.filter] using ih
    · rw [insertDesc, if_neg hc]
      simp [List.filter, hx]

theorem filter_insertDesc_ne (x : String × Int) (l : List (String × Int))
    (s : Int) (hx : ¬ x.2 = s) :
    (insertDesc x l).filter (fun p => decide (p.2 = s)) =
      l.filter (fun p => decide (p.2 = s)) := by
  induction l with
  | nil => simp [insertDesc, List.filter, hx]
  | cons y ys ih =>
    by_cases hc : x.2 < y.2
    · rw [insertDesc, if_pos hc]
      by_cases hy : y.2 = s
      · simp only [List.filter, decide_eq_true hy, ih]
      · simp only [List.filter, decide_eq_false hy, ih]
    · rw [insertDesc, if_neg hc]
      simp [List.filter, hx]

theorem filter_sortDesc (l : List (String × Int)) (s : Int) :
    (sortDesc l).filter (fun p => decide (p.2 = s)) =
      l.filter (fun p => decide (p.2 = s)) := by
  induction l with
  | nil => simp [sortDesc]
  | cons x xs ih =>
    by_cases hx : x.2 = s
    · rw [sortDesc, filter_insertDesc_eq x (sortDesc xs) s hx, ih]
      simp [List.filter, hx]
    · rw [sortDesc, filter_insertDesc_ne x (sortDesc xs) s hx, ih]
      simp [List.filter, hx]

/-! ### Admin registry lemmas -/

theorem base_subset_applyAdminOp (base : List Int) (admins : Finset Int)
    (op : AdminOp) (h : base.toFinset ⊆ admins) :
    base.toFinset ⊆ applyAdminOp base admins op := by
  cases op with
  | add c t =>
    show base.toFinset ⊆ (addadmin admins c t).2
    unfold addadmin
    split
    · exact h
    · split
      · exact h
      · exact h.trans (Finset.subset_insert t admins)
  | del c t =>
    show base.toFinset ⊆ (deladmin base admins c t).2
    unfold deladmin
    split
    · exact h
    · split
      · exact h
      · split
        · exact h
        · rename_i hc hb ht
          intro x hx
          refine Finset.mem_erase.2 ⟨?_, h hx⟩
          intro hxt
          subst hxt
          exact hb (List.mem_toFinset.1 hx)

theorem base_subset_runAdminOps (base : List Int) (ops : List AdminOp) :
    ∀ admins : Finset Int, base.toFinset ⊆ admins →
      base.toFinset ⊆ runAdminOps base admins ops := by
  induction ops with
  | nil => exact fun admins h => h
  | cons op ops ih =>
    intro admins h
    exact ih (applyAdminOp base admins op) (base_subset_applyAdminOp base admins op h)

/-! ### Ledger lemmas -/

theorem debit_some (bal amount : Int) (h : amount ≤ bal) :
    debit bal amount = some (bal - amount) := by
  rw [debit, if_pos h]

theorem debit_none (bal amount : Int) (h : bal < amount) :
    debit bal amount = none := by
  rw [debit, if_neg (not_le.2 h)]

theorem runDraws_zero (cost : Int) (hc : 0 < cost) (n : Nat) :
    runDraws cost n 0 = (0, n, 0) := by
  induction n with
  | zero => rfl
  | succ m ih =>
    rw [runDraws, debit_none 0 cost hc]
    simp [ih]

theorem runDraws_exact (cost : Int) (hc : 0 < cost) :
    ∀ N k : Nat, k ≤ N → runDraws cost N ((k : Int) * cost) = (k, N - k, 0) := by
  intro N
  induction N with
  | zero =>
    intro k hk
    have hk0 : k = 0 := Nat.le_zero.1 hk
    subst hk0
    simp [runDraws]
  | succ m ih =>
    intro k hk
    cases k with
    | zero =>
      simp only [Nat.cast_zero, zero_mul]
      rw [runDraws, debit_none 0 cost hc]
      simp [runDraws_zero cost hc m]
    | succ j =>
      have hjk : j ≤ m := Nat.succ_le_succ_iff.1 hk
      have hcast : ((j + 1 : Nat) : Int) * cost = (j : Int) * cost + cost := by
        push_cast
        ring
      have hjpos : (0 : Int) ≤ (j : Int) * cost := by positivity
      have hle : cost ≤ ((j + 1 : Nat) : Int) * cost := by
        rw [hcast]
        linarith
      have hbal : ((j + 1 : Nat) : Int) * cost - cost = (j : Int) * cost := by
        rw [hcast]
        ring
      rw [runDraws, debit_some _ cost hle, hbal]
      simp only [ih j hjk]
      simp [Nat.succ_sub_succ]

theorem debit_no_double (bal a a' b1 : Int) (h : bal < a + a')
    (h1 : debit bal a = some b1) : debit b1 a' = none := by
  unfold debit at h1
  split at h1
  · injection h1 with he
    subst he
    exact debit_none _ _ (by omega)
  · cases h1

/-- `scoresOk` holds of the empty store. -/
theorem scoresOk_nil : scoresOk [] := by
  intro uid r h
  simp [lookupUser] at h

/-! ## The claims -/

/-- C1: starting from a balance of exactly `k · cost`, `N ≥ k` draw attempts
produce exactly `k` successes and `N - k` `InsufficientFunds` failures (first
conjunct), and since the balance check and the decrement are one atomic step,
two debits that each observe a sufficient pre-debit balance cannot both
succeed when their combined cost exceeds the balance: once the first commits,
the second one's check runs against the decremented balance and fails (second
conjunct). -/
theorem claim1_concurrent_draws_conserve_currency (cost : Int) (k N : Nat)
    (hc : 0 < cost) (hk : k ≤ N) :
    runDraws cost N ((k : Int) * cost) = (k, N - k, 0) ∧
    ∀ bal a a' b1 : Int, bal < a + a' → debit bal a = some b1 →
      debit b1 a' = none := by
  refine ⟨runDraws_exact cost hc N k hk, ?_⟩
  intro bal a a' b1 h h1
  exact debit_no_double bal a a' b1 h h1

theorem claim1_witness : runDraws 5 5 ((2 : Int) * 5) = (2, 5 - 2, 0) :=
  (claim1_concurrent_draws_conserve_currency 5 2 5 (by decide) (by decide)).1

/-- C2: no sequence of store-mutating operations drives a stored quiz score
below zero — the record is created lazily by `add_user` with score 0 and the
only mutation of the score, a correct `answer`, increments it. -/
theorem claim2_balance_nonneg (users : Users) (ops : List BotOp)
    (h : scoresOk users) :
    scoresOk (runOps users ops) ∧
    ∀ (uid : Int) (un nm : Option String) (now : String),
      lookupUser users uid = none →
      lookupUser (add_user users uid un nm now) uid =
        some { username := un, full_name := nm, quiz_score := 0,
               prayer_requests := [], first_seen := now } := by
  refine ⟨runOps_scoresOk ops users h, ?_⟩
  intro uid un nm now hn
  exact lookup_add_user_self_of_none users uid un nm now hn

theorem claim2_witness :
    scoresOk (runOps [] [BotOp.addUser 1 none none "t",
      BotOp.answerOp 1 "a" "A"]) :=
  (claim2_balance_nonneg [] [BotOp.addUser 1 none none "t",
    BotOp.answerOp 1 "a" "A"] scoresOk_nil).1

/-- The two-user store refuting the tie-break rule of C3: both users have
score 5, the store lists user 2 before user 1 (a Python dict preserves
insertion order, and nothing re-sorts it by id). -/
def usersTieC3 : Users :=
  [(2, { username := some "u2", full_name := none, quiz_score := 5,
         prayer_requests := [], first_seen := "" }),
   (1, { username := some "u1", full_name := none, quiz_score := 5,
         prayer_requests := [], first_seen := "" })]

/-- C3 counterexample: with two tied users stored in the order user 2, user 1,
`tops` lists user 2's row first — Python's stable sort keeps the insertion
order on ties, it does not break them by ascending user_id (which would list
user 1's row first). -/
theorem claim3_counterexample :
    tops usersTieC3 = [("u2", 5), ("u1", 5)] ∧
    tops usersTieC3 ≠ [("u1", 5), ("u2", 5)] := by
  decide

/-- C3 as amended: `tops` returns at most 10 rows, ordered by descending
score; ties are broken by the order the users occur in the store (the sort is
stable: for every score, the rows with that score appear in store order), not
by ascending user_id; and repeated calls on unchanged data agree because
`tops` is a pure function of the store.  The sorted list is a permutation of
the rows. -/
theorem claim3_rank_order_amended (users : Users) :
    (tops users).Pairwise (fun a b => b.2 ≤ a.2) ∧
    (tops users).length ≤ 10 ∧
    (sortDesc (ranks users)).Perm (ranks users) ∧
    ∀ s : Int,
      (sortDesc (ranks users)).filter (fun p => decide (p.2 = s)) =
        (ranks users).filter (fun p => decide (p.2 = s)) := by
  refine ⟨?_, ?_, sortDesc_perm (ranks users), fun s => filter_sortDesc (ranks users) s⟩
  · exact List.Pairwise.sublist (List.take_sublist 10 _) (pairwise_sortDesc (ranks users))
  · rw [tops, List.length_take]
    exact Nat.min_le_left 10 _

/-- The stored quiz score of a user, when the user exists. -/
def scoreOf (users : Users) (uid : Int) : Option Int :=
  (lookupUser users uid).map fun r => r.quiz_score

/-- C4: a user's quiz score counts exactly the successful answers: created at
0 by `add_user`, it gains exactly 1 per correct `answer` by that user and is
changed by nothing else in any operation sequence. -/
theorem claim4_score_counts_successes (users : Users) (uid : Int)
    (un nm : Option String) (now : String) (ops : List BotOp)
    (h : lookupUser users uid = none) :
    scoreOf (runOps (add_user users uid un nm now) ops) uid =
      some (countCorrect uid ops) := by
  obtain ⟨r', h', hs⟩ := runOps_score ops (add_user users uid un nm now) uid _
    (lookup_add_user_self_of_none users uid un nm now h)
  rw [scoreOf, h']
  simp [hs]

theorem claim4_witness :
    scoreOf (runOps (add_user [] 1 none none "t")
        [BotOp.answerOp 1 "a" "A", BotOp.answerOp 1 "b" "A",
         BotOp.answerOp 2 "a" "A"]) 1 =
      some (countCorrect 1 [BotOp.answerOp 1 "a" "A",
        BotOp.answerOp 1 "b" "A", BotOp.answerOp 2 "a" "A"]) :=
  claim4_score_counts_successes [] 1 none none "t" _ rfl

/-- C5: appending an id that is already registered fails with the duplicate
error (`alreadyAdmin`) and leaves the registry unchanged — the membership
check runs before any mutation; a fresh id appended by an authorized caller
becomes immediately visible (`is_admin` sees it).  `save_group`, the other
append-only list, likewise leaves the registry unchanged on a duplicate. -/
theorem claim5_duplicate_append_rejected (admins : Finset Int)
    (caller target gid : Int) (groups : List Int)
    (hc : is_admin admins caller = true) :
    (target ∈ admins → addadmin admins caller target = (.alreadyAdmin, admins)) ∧
    (target ∉ admins →
      addadmin admins caller target = (.added, insert target admins) ∧
      is_admin (addadmin admins caller target).2 target = true) ∧
    (gid ∈ groups → save_group gid groups = groups) := by
  refine ⟨?_, ?_, ?_⟩
  · intro ht
    rw [addadmin, if_neg (by simp [hc]), if_pos ht]
  · intro ht
    constructor
    · rw [addadmin, if_neg (by simp [hc]), if_neg ht]
    · rw [addadmin, if_neg (by simp [hc]), if_neg ht]
      simp [is_admin]
  · intro hg
    rw [save_group, if_pos hg]

theorem claim5_witness :
    ((1 : Int) ∈ ({1} : Finset Int) →
      addadmin {1} 1 1 = (.alreadyAdmin, {1})) ∧
    ((1 : Int) ∉ ({1} : Finset Int) →
      addadmin {1} 1 1 = (.added, insert 1 {1}) ∧
      is_admin (addadmin {1} 1 1).2 1 = true) ∧
    ((5 : Int) ∈ [(5 : Int)] → save_group 5 [5] = [5]) :=
  claim5_duplicate_append_rejected {1} 1 1 5 [5] (by decide)

/-- C6: the claim states the intended 7-day window of spec §4.5; spec §9
records that the engine source instead reuses the daily changed-since-today
check (`claimWeekly_code`).  At the failing input — last weekly claim on day
0, next call on day 1 — the code grants the claim (the date changed) while
the stated semantics (`claimWeekly_spec`) refuses it; the code likewise
grants on each of days 2..6.  Both agree on day 0 (refuse) and day 7
(grant). -/
theorem claim6_weekly_uses_daily_check :
    claimWeekly_code 0 1 = true ∧
    claimWeekly_spec 0 1 = false ∧
    ((List.range 6).all fun i => claimWeekly_code 0 (i + 1)) = true ∧
    ((List.range 6).any fun i => claimWeekly_spec 0 (i + 1)) = false ∧
    claimWeekly_code 0 0 = false ∧
    claimWeekly_spec 0 7 = true ∧
    claimWeekly_code 0 7 = true := by
  decide

/-- C7 counterexample: the engine-side admin entry point does consult the
caller's identity — with the same admin set and target, caller 99 (not an
admin) is refused with no state change while caller 1 (an admin) gets the add
performed, so the outcome depends on the caller. -/
theorem claim7_counterexample :
    addadmin {1} 99 42 ≠ addadmin {1} 1 42 ∧
    addadmin {1} 99 42 = (.notAuthorized, {1}) := by
  decide

/-- C7 as amended: the admin entry points perform the authorization
themselves — each begins with an `is_admin` check on the caller and refuses
unauthorized callers before any state change or send; there is no separate
engine layer trusting an external boundary. -/
theorem claim7_admin_ops_check_caller (admins : Finset Int)
    (caller target : Int) (args : List String) (base : List Int)
    (h : is_admin admins caller = false) :
    addadmin admins caller target = (.notAuthorized, admins) ∧
    deladmin base admins caller target = (.notAuthorized, admins) ∧
    broadcast_cmd admins caller args = .notAuthorized := by
  refine ⟨?_, ?_, ?_⟩
  · rw [addadmin, if_pos (by simp [h])]
  · rw [deladmin, if_pos (by simp [h])]
  · rw [broadcast_cmd, if_pos (by simp [h])]

theorem claim7_witness :
    addadmin {1} 99 42 = (.notAuthorized, {1}) ∧
    deladmin [] {1} 99 42 = (.notAuthorized, {1}) ∧
    broadcast_cmd {1} 99 ["m"] = .notAuthorized :=
  claim7_admin_ops_check_caller {1} 99 42 ["m"] [] (by decide)

/-- C8: every id in `config.ADMIN_IDS` stays an admin: `load_admins` includes
the base ids, any sequence of `addadmin`/`deladmin` commands preserves
`base ⊆ ADMINS`, and `deladmin` on a base id refuses the removal (it never
reaches the `removed` branch) and leaves the set unchanged. -/
theorem claim8_config_admins_permanent (base extras : List Int)
    (admins : Finset Int) (ops : List AdminOp)
    (h : base.toFinset ⊆ admins) :
    base.toFinset ⊆ runAdminOps base admins ops ∧
    base.toFinset ⊆ load_admins base extras ∧
    ∀ caller target : Int, target ∈ base →
      (deladmin base admins caller target).2 = admins ∧
      (deladmin base admins caller target).1 ≠ .removed := by
  refine ⟨base_subset_runAdminOps base ops admins h, ?_, ?_⟩
  · rw [load_admins]
    exact Finset.subset_union_left
  · intro caller target ht
    by_cases hcall : is_admin admins caller
    · rw [deladmin, if_neg (by simp [hcall]), if_pos ht]
      exact ⟨rfl, by simp⟩
    · rw [deladmin, if_pos (by simpa using hcall)]
      exact ⟨rfl, by simp⟩

theorem claim8_witness :
    ([(7 : Int)].toFinset ⊆ runAdminOps [7] {7} [AdminOp.del 7 7]) ∧
    ([(7 : Int)].toFinset ⊆ load_admins [7] []) ∧
    ((7 : Int) ∈ [(7 : Int)] →
      (deladmin [7] {7} 7 7).2 = {7} ∧
      (deladmin [7] {7} 7 7).1 ≠ .removed) := by
  obtain ⟨h1, h2, h3⟩ :=
    claim8_config_admins_permanent [7] [] {7} [AdminOp.del 7 7] (by decide)
  exact ⟨h1, h2, h3 7 7⟩

/-- C9: whenever the config base is contained in the in-memory set `ADMINS`,
`persist_admins` (which stores exactly `sorted(ADMINS - base)`) followed by
`load_admins` (which unites the base with the stored extras) reconstructs
exactly `ADMINS`. -/
theorem claim9_persist_load_roundtrip (base : List Int) (admins : Finset Int)
    (h : base.toFinset ⊆ admins) :
    load_admins base (persist_admins base admins) = admins := by
  rw [load_admins, persist_admins, Finset.sort_toFinset]
  exact Finset.union_sdiff_of_subset h

theorem claim9_witness :
    load_admins [7] (persist_admins [7] {7, 3}) = {7, 3} :=
  claim9_persist_load_roundtrip [7] {7, 3} (by decide)

/-- C10: on an existing id, `add_user` rewrites only `username` and
`full_name` — the record keeps its `quiz_score`, `prayer_requests` and
`first_seen`, and every other id reads back unchanged. -/
theorem claim10_add_user_frame (users : Users) (uid : Int)
    (un nm : Option String) (now : String) (r : UserRecord)
    (h : lookupUser users uid = some r) :
    lookupUser (add_user users uid un nm now) uid =
      some { username := un, full_name := nm, quiz_score := r.quiz_score,
             prayer_requests := r.prayer_requests,
             first_seen := r.first_seen } ∧
    ∀ uid' : Int, uid' ≠ uid →
      lookupUser (add_user users uid un nm now) uid' =
        lookupUser users uid' := by
  constructor
  · exact lookup_add_user_self_of_some users uid un nm now r h
  · intro uid' hne
    exact lookup_add_user_ne users uid uid' un nm now hne

/-- The pre-existing record used by the C10 witness. -/
def oldRecC10 : UserRecord :=
  { username := some "old", full_name := none, quiz_score := 3,
    prayer_requests := [("p", "s")], first_seen := "d" }

theorem claim10_witness :
    lookupUser (add_user [(1, oldRecC10)] 1 (some "new") (some "n") "t") 1 =
      some { username := some "new", full_name := some "n",
             quiz_score := oldRecC10.quiz_score,
             prayer_requests := oldRecC10.prayer_requests,
             first_seen := oldRecC10.first_seen } ∧
    lookupUser (add_user [(1, oldRecC10)] 1 (some "new") (some "n") "t") 2 =
      lookupUser [(1, oldRecC10)] 2 := by
  obtain ⟨h1, h2⟩ :=
    claim10_add_user_frame [(1, oldRecC10)] 1 (some "new") (some "n") "t"
      oldRecC10 rfl
  exact ⟨h1, h2 2 (by decide)⟩

end Enoch
